/-
Verification of the argument-processing core of the deno-cli repository
(`src/args.ts`, current revision: the one defining both `camelToKebab` and
`kebabToCamel` and the alias-expansion / camel-casing normalizer inside
`processArgs`).

Modelling conventions:
* JavaScript strings are modelled as lists of code points (`Str := List Nat`).
  The case-mapping functions are modelled on the ASCII range, which is the
  range the source's regular expressions (`[a-z0-9]`, `[A-Z]`, `-([a-z])`)
  operate on.
* JavaScript objects used as string-keyed maps are modelled as association
  lists with insertion-order semantics (`setA` updates in place or appends).
* The external collaborators (the `@std/cli` argument tokenizer and the Zod
  validator) are not part of the repository; they are modelled from the
  specification of their interfaces and marked as such.
-/
import Mathlib

namespace DenoCli

/-- A JavaScript string, modelled as its list of code points (`Nat`s). -/
abbrev Str := List Nat

/-- Convert a Lean string literal to the code-point model (for concrete inputs). -/
def strOf (s : String) : Str := s.toList.map Char.toNat

/-- The regex class `[A-Z]`. -/
def isUpperC (c : Nat) : Bool := 65 ≤ c && c ≤ 90

/-- The regex class `[a-z]`. -/
def isLowerC (c : Nat) : Bool := 97 ≤ c && c ≤ 122

/-- The regex class `[0-9]`. -/
def isDigitC (c : Nat) : Bool := 48 ≤ c && c ≤ 57

/-- The regex class `[a-z0-9]` used on the left of the camel boundary. -/
def lowerOrDigit (c : Nat) : Bool := isLowerC c || isDigitC c

/-- An ASCII letter or digit. -/
def isAlnumC (c : Nat) : Bool := isUpperC c || isLowerC c || isDigitC c

/-- JavaScript `String.prototype.toLowerCase`, restricted to the ASCII range. -/
def toLowerC (c : Nat) : Nat := if isUpperC c then c + 32 else c

/-- JavaScript `String.prototype.toUpperCase`, restricted to the ASCII range. -/
def toUpperC (c : Nat) : Nat := if isLowerC c then c - 32 else c

/-- The `-` character. -/
def hyph : Nat := 45

/-- The `_` positional sentinel key of the parser output. -/
def underscoreKey : Str := strOf "_"

/--
The replacement pass of `camelToKebab`:
`str.replace(/([a-z0-9])([A-Z])/g, "$1-$2")`.
Matches cannot overlap (the second matched character is upper case and hence
can never start a later match), so scanning one character at a time is exact.
-/
def insertKebabHyphens : Str → Str
  | [] => []
  | [c] => [c]
  | c1 :: c2 :: rest =>
    if lowerOrDigit c1 && isUpperC c2 then
      c1 :: hyph :: insertKebabHyphens (c2 :: rest)
    else
      c1 :: insertKebabHyphens (c2 :: rest)

/--
Function `camelToKebab` from `src/args.ts`:
`str.replace(/([a-z0-9])([A-Z])/g, "$1-$2").toLowerCase()`.
-/
def camelToKebab (s : Str) : Str := (insertKebabHyphens s).map toLowerC

/--
Function `kebabToCamel` from `src/args.ts`: a global replace of the pattern
"hyphen followed by `[a-z]`" by the upper-cased letter,
`(g) => g[1].toUpperCase()`.
When a hyphen is not followed by a lower-case letter the regex does not match
at that position and scanning resumes one character later.
-/
def kebabToCamel : Str → Str
  | [] => []
  | c :: rest =>
    if c = hyph then
      match rest with
      | [] => [c]
      | c2 :: rest2 =>
        if isLowerC c2 then toUpperC c2 :: kebabToCamel rest2
        else c :: kebabToCamel (c2 :: rest2)
    else c :: kebabToCamel rest

/-- A parsed flag value (the values `@std/cli`'s `parseArgs` can produce). -/
inductive Value where
  | vBool (b : Bool)
  | vStr (s : Str)
  | vNum (n : Int)
  | vList (vs : List Str)
  deriving DecidableEq

/-- JavaScript truthiness of a parsed value (`if (camelCasedArgs.help)`). -/
def Value.truthy : Value → Bool
  | .vBool b => b
  | .vStr s => !s.isEmpty
  | .vNum n => n != 0
  | .vList _ => true

/-- Template-literal rendering of a value (used only inside help text). -/
def Value.display : Value → Str
  | .vBool true => strOf "true"
  | .vBool false => strOf "false"
  | .vStr s => s
  | .vNum n => strOf (toString n)
  | .vList vs => List.intercalate (strOf ",") vs

/-- A string-keyed JavaScript object, as an insertion-ordered association list. -/
abbrev AList (α : Type) := List (Str × α)

/-- Property read `m[k]` (unique keys: the first binding is the binding). -/
def lookupA {α : Type} : AList α → Str → Option α
  | [], _ => none
  | (k1, v1) :: rest, k => if k1 = k then some v1 else lookupA rest k

/-- The `in` operator: `k in m`. -/
def hasKey {α : Type} (m : AList α) (k : Str) : Bool := (lookupA m k).isSome

/-- Property write `m[k] = v`: update in place if present, else append. -/
def setA {α : Type} : AList α → Str → α → AList α
  | [], k, v => [(k, v)]
  | (k1, v1) :: rest, k, v =>
    if k1 = k then (k1, v) :: rest else (k1, v1) :: setA rest k v

/-- Keys of a JavaScript object are unique; maps built by `setA` satisfy this. -/
def keysNodup {α : Type} (m : AList α) : Prop := (m.map Prod.fst).Nodup

instance {α : Type} (m : AList α) : Decidable (keysNodup m) :=
  List.nodupDecidable _

/-- A parsed-argument map (`rawArgs`, `tempAliasedArgs`, `camelCasedArgs`). -/
abbrev ArgMap := AList Value

/--
The `ParseOptions` shape used by `processArgs`
(`InternalGeneratedParseOptions`): string flags, boolean flags, the alias
table (alias token to kebab-case flag name) and the defaults table.
-/
structure ParseOpts where
  string : List Str
  boolean : List Str
  «alias» : AList Str
  default : ArgMap
  deriving DecidableEq

/--
The `ensuredParseOptions` value in `processArgs`:
spread of the final parse options with `help` appended to the boolean list
and the binding `h: "help"` written into the alias table (overwriting any
caller-supplied binding of `h`).
-/
def ensureOpts (p : ParseOpts) : ParseOpts :=
  { p with
    boolean := p.boolean ++ [strOf "help"]
    «alias» := setA p.«alias» (strOf "h") (strOf "help") }

/-- The base (fully unwrapped) kind of a Zod field schema. -/
inductive ZBase where
  | zString
  | zBoolean
  | zNumber
  | zEnum (values : List Str)
  | zOther
  deriving DecidableEq

/--
One composable wrapper layer around a base schema:
`ZodOptional`, `ZodNullable`, `ZodDefault` (carrying its default value) and
`ZodEffects` (transform/refinement, modelled as value-preserving).
-/
inductive Wrapper where
  | wOptional
  | wNullable
  | wDefault (v : Value)
  | wEffects
  deriving DecidableEq

/--
One field of a Zod object schema: canonical camelCase key, the wrapper chain
(outermost first), the base kind, the optional `meta` alias and description.
-/
structure Field where
  key : Str
  wrappers : List Wrapper
  base : ZBase
  «alias» : Option Str
  description : Str
  deriving DecidableEq

/-- A Zod object schema: its fields in declaration order. -/
abbrev Schema := List Field

/-- The last (innermost) `ZodDefault` value of a wrapper chain, if any. -/
def lastDefault : List Wrapper → Option Value
  | [] => none
  | Wrapper.wDefault v :: ws => some ((lastDefault ws).getD v)
  | _ :: ws => lastDefault ws

/--
Zod's `isOptional()` on the original field schema: `undefined` passes iff an
optional or default layer occurs somewhere in the chain (nullable and
effects layers pass `undefined` through).
-/
def fieldIsOptional (f : Field) : Bool :=
  f.wrappers.any fun w =>
    match w with
    | Wrapper.wOptional => true
    | Wrapper.wDefault _ => true
    | _ => false

/-- A help section: title plus ordered label-to-description map. -/
structure HelpSection where
  title : Str
  options : AList Str
  deriving DecidableEq

/-- The type-hint token appended to a field's help text, by base kind. -/
def typeHintOf : ZBase → Str
  | ZBase.zString => strOf "<string>"
  | ZBase.zNumber => strOf "<number>"
  | ZBase.zEnum vs => strOf "<" ++ List.intercalate (strOf "|") vs ++ strOf ">"
  | ZBase.zBoolean => []
  | ZBase.zOther => []

/-- The option label: `--<kebabKey>` plus `, -<alias>` when an alias exists. -/
def optionLabel (kebabKey : Str) (al : Option Str) : Str :=
  strOf "--" ++ kebabKey ++
    (match al with
     | some a => strOf ", -" ++ a
     | none => [])

/--
The default-recording effect of the unwrap loop: every `ZodDefault` layer
encountered writes its default value under the field's kebab key (a later,
inner layer overwrites an earlier, outer one).
-/
def recordDefaults (kebabKey : Str) (ws : List Wrapper) (dm : ArgMap) : ArgMap :=
  ws.foldl
    (fun d w =>
      match w with
      | Wrapper.wDefault v => setA d kebabKey v
      | _ => d)
    dm

/-- Accumulator of the field loop in `generateOptionsFromSchema`. -/
structure GenAcc where
  opts : ParseOpts
  helpOptions : AList Str
  deriving DecidableEq

/--
The body of the `for (const key in schema.shape)` loop of
`generateOptionsFromSchema`: record the alias binding, unwrap the wrapper
chain recording every `ZodDefault` value under the kebab key, route the kebab
key (and alias token) into the string or boolean list by the unwrapped base
kind (any unrecognized base kind falls into the string list), and record the
help label/text.
-/
def processField (acc : GenAcc) (f : Field) : GenAcc :=
  let kebabKey := camelToKebab f.key
  let aliasTab :=
    match f.«alias» with
    | some a => setA acc.opts.«alias» a kebabKey
    | none => acc.opts.«alias»
  let dm := recordDefaults kebabKey f.wrappers acc.opts.default
  let strs :=
    match f.base with
    | ZBase.zBoolean => acc.opts.string
    | _ => acc.opts.string ++ (kebabKey :: f.«alias».toList)
  let bools :=
    match f.base with
    | ZBase.zBoolean => acc.opts.boolean ++ (kebabKey :: f.«alias».toList)
    | _ => acc.opts.boolean
  let typeHint := typeHintOf f.base
  let helpText :=
    f.description
    ++ (if typeHint.isEmpty then [] else strOf " (" ++ typeHint ++ strOf ")")
    ++ (if hasKey dm kebabKey then
          strOf " (デフォルト: " ++ ((lookupA dm kebabKey).getD (Value.vStr [])).display ++ strOf ")"
        else [])
    ++ (if fieldIsOptional f then [] else strOf " (必須)")
  { opts := { string := strs, boolean := bools, «alias» := aliasTab, default := dm }
    helpOptions := setA acc.helpOptions (optionLabel kebabKey f.«alias») helpText }

/--
Function `generateOptionsFromSchema` from `src/args.ts`: run the field loop, then
unconditionally add the `help` boolean flag, the alias `h → help`
(overwriting any field-supplied binding of `h`) and the `--help, -h` help
entry; the generated help sections are the single "オプション" section.
-/
def generateOptionsFromSchema (s : Schema) : ParseOpts × List HelpSection :=
  let acc := s.foldl processField ⟨⟨[], [], [], []⟩, []⟩
  let generatedParseOptions :=
    { acc.opts with
      «alias» := setA acc.opts.«alias» (strOf "h") (strOf "help")
      boolean := acc.opts.boolean ++ [strOf "help"] }
  let helpOpts := setA acc.helpOptions (strOf "--help, -h") (strOf "ヘルプを表示")
  (generatedParseOptions, [⟨strOf "オプション", helpOpts⟩])

/--
Step 1 of the normalizer in `processArgs`, for one alias table entry
`(alias, originalKebabKey)`: when the alias key is present in the map and the
kebab key is not already present, copy the alias's value onto the kebab key
(the commented-out `delete` in the source means the alias key is kept).
-/
def aliasStep (acc : ArgMap) (p : Str × Str) : ArgMap :=
  match lookupA acc p.1 with
  | some v => if hasKey acc p.2 then acc else setA acc p.2 v
  | none => acc

/-- Step 1 of the normalizer: expand every alias entry, in table order. -/
def aliasExpand (tab : AList Str) (raw : ArgMap) : ArgMap :=
  tab.foldl aliasStep raw

/-- Step 2's key transformation: `_` passes through, others are camel-cased. -/
def targetKey (k : Str) : Str :=
  if k = underscoreKey then k else kebabToCamel k

/--
Step 2 of the normalizer: rebuild the map (`camelCasedArgs`) converting
every key except the positional sentinel `_` to camelCase.
-/
def camelizeArgs (m : ArgMap) : ArgMap :=
  m.foldl (fun acc e => setA acc (targetKey e.1) e.2) []

/-- The full two-step `ArgumentNormalizer` inside `processArgs`. -/
def normalizeArgs (tab : AList Str) (raw : ArgMap) : ArgMap :=
  camelizeArgs (aliasExpand tab raw)

/--
Modelled from the spec: the alias group of a flag name under the parser's
alias table — the external ArgumentParser assigns a supplied value to the
typed key and to every name related to it through the alias table (so a value
typed via an alias also lands on its kebab flag name, and vice versa).
-/
def aliasClosure (tab : AList Str) (k : Str) : List Str :=
  k :: (tab.filterMap fun p => if p.1 = k then some p.2 else none)
    ++ (tab.filterMap fun p => if p.2 = k then some p.1 else none)

/-- Modelled from the spec: assign a flag value to a key and its alias group. -/
def assignFlag (tab : AList Str) (m : ArgMap) (k : Str) (v : Value) : ArgMap :=
  (aliasClosure tab k).foldl (fun acc k2 => setA acc k2 v) m

/-- A token of the form `--name` (with a non-empty name). -/
def isLongFlag (t : Str) : Bool :=
  match t with
  | a :: b :: _ :: _ => a = hyph && b = hyph
  | _ => false

/-- A token of the form `-x` (single leading hyphen). -/
def isShortFlag (t : Str) : Bool :=
  match t with
  | a :: b :: _ => a = hyph && !(b = hyph)
  | _ => false

/--
Modelled from the spec: a flag name is treated as boolean when it or any
name in its alias group is declared boolean.
-/
def isBooleanFlag (opts : ParseOpts) (k : Str) : Bool :=
  (aliasClosure opts.«alias» k).any fun k2 => opts.boolean.contains k2

/--
Modelled from the spec: the token scan of the external ArgumentParser
(`parseArgs` of `@std/cli`, absent from src/): a conventional POSIX-ish
tokenizer that, given raw command-line tokens and the parser configuration,
returns a flat map of flag → value plus a positional-argument list.
Flags declared boolean become presence flags (`true`); other flags consume
the following token as their text value; non-flag tokens are positionals.
-/
def scanTokens (opts : ParseOpts) : List Str → ArgMap → List Str → ArgMap × List Str
  | [], m, pos => (m, pos)
  | t :: rest, m, pos =>
    if isLongFlag t then
      let k := t.drop 2
      if isBooleanFlag opts k then
        scanTokens opts rest (assignFlag opts.«alias» m k (Value.vBool true)) pos
      else
        match rest with
        | v :: rest2 => scanTokens opts rest2 (assignFlag opts.«alias» m k (Value.vStr v)) pos
        | [] => (assignFlag opts.«alias» m k (Value.vStr []), pos)
    else if isShortFlag t then
      let k := t.drop 1
      if isBooleanFlag opts k then
        scanTokens opts rest (assignFlag opts.«alias» m k (Value.vBool true)) pos
      else
        match rest with
        | v :: rest2 => scanTokens opts rest2 (assignFlag opts.«alias» m k (Value.vStr v)) pos
        | [] => (assignFlag opts.«alias» m k (Value.vStr []), pos)
    else
      scanTokens opts rest m (pos ++ [t])

/--
Modelled from the spec: the external ArgumentParser entry point: scan the
tokens, then apply the configured default values to flag names still absent
(a default is propagated to the alias group like a typed value), and collect
the positionals under the sentinel key `_`.
-/
def parseTokens (opts : ParseOpts) (tokens : List Str) : ArgMap :=
  let scanned := scanTokens opts tokens [] []
  let withDefaults := opts.default.foldl
    (fun acc p => if hasKey acc p.1 then acc else assignFlag opts.«alias» acc p.1 p.2)
    scanned.1
  setA withDefaults underscoreKey (Value.vList scanned.2)

/-- A Zod issue path: an array of segments, or a non-array raw value. -/
inductive IssuePath where
  | segs (ps : List Str)
  | raw (s : Str)
  deriving DecidableEq

/-- One structured validation issue of a `ZodError`. -/
structure Issue where
  path : IssuePath
  code : Str
  message : Str
  deriving DecidableEq

/--
The result of the external schema validation as observed by `processArgs`:
a typed result, a `ZodError` carrying its issue array, or any other thrown
error (reported generically).
-/
inductive VResult where
  | ok (r : ArgMap)
  | issues (is : List Issue)
  | nonIssueError (msg : Str)
  deriving DecidableEq

/-- Modelled from the spec: the base-kind check of the external validator. -/
def checkBase : ZBase → Value → Bool
  | ZBase.zString, Value.vStr _ => true
  | ZBase.zBoolean, Value.vBool _ => true
  | ZBase.zNumber, Value.vNum _ => true
  | ZBase.zEnum vs, Value.vStr s => vs.contains s
  | ZBase.zOther, _ => true
  | _, _ => false

/--
Modelled from the spec: validation of one field value by the external
schema validator (Zod, absent from src/): unwrap the layers — an optional
layer accepts a missing value, a default layer substitutes its default for a
missing value, nullable and refinement layers pass the value through — then
check the base kind; a missing value with no optional/default layer raises a
required-field issue.
-/
def validateField (key : Str) : List Wrapper → ZBase → Option Value → Except Issue (Option Value)
  | [], b, some v =>
    if checkBase b v then Except.ok (some v)
    else Except.error ⟨IssuePath.segs [key], strOf "invalid_type", strOf "Invalid input"⟩
  | [], _, none =>
    Except.error ⟨IssuePath.segs [key], strOf "invalid_type", strOf "Required"⟩
  | Wrapper.wOptional :: _, _, none => Except.ok none
  | Wrapper.wOptional :: ws, b, some v => validateField key ws b (some v)
  | Wrapper.wDefault d :: ws, b, none => validateField key ws b (some d)
  | Wrapper.wDefault _ :: ws, b, some v => validateField key ws b (some v)
  | Wrapper.wNullable :: ws, b, ov => validateField key ws b ov
  | Wrapper.wEffects :: ws, b, ov => validateField key ws b ov

/--
Modelled from the spec: one field of `zodSchema.parse(candidateMap)`:
validate the field's value from the candidate map, extending either the
result map or the issue list.
-/
def zodFieldStep (m : ArgMap) (acc : ArgMap × List Issue) (f : Field) : ArgMap × List Issue :=
  match validateField f.key f.wrappers f.base (lookupA m f.key) with
  | Except.ok (some v) => (setA acc.1 f.key v, acc.2)
  | Except.ok none => acc
  | Except.error i => (acc.1, acc.2 ++ [i])

/--
Modelled from the spec: `zodSchema.parse(candidateMap)` of the external
validator: validate every declared field, collecting either a typed result
map (unknown keys are stripped) or the non-empty ordered issue list of the
raised `ZodError`.
-/
def zodParse (s : Schema) (m : ArgMap) : VResult :=
  if (s.foldl (zodFieldStep m) ([], [])).2.isEmpty then
    VResult.ok (s.foldl (zodFieldStep m) ([], [])).1
  else VResult.issues (s.foldl (zodFieldStep m) ([], [])).2

/--
Interface `ProcessArgsOptions` from `src/args.ts`. `customHelpGeneration` is modelled
by the text it would return for this invocation, when supplied.
-/
structure ProcessArgsOptions where
  zodSchema : Schema
  parseArgsOptions : Option ParseOpts
  helpSections : Option (List HelpSection)
  commandName : Str
  commandDescription : Option Str
  customHelpGeneration : Option Str
  deriving DecidableEq

/--
The observable outcome of one `processArgs` invocation: process termination
(`Deno.exit code`) together with the lines written to the info stream
(`console.info`/stdout) and to the error stream (`console.error`/stderr),
in emission order per stream, or a validated result returned to the caller.
-/
inductive Outcome where
  | exited (code : Nat) (infoLines : List Str) (errLines : List Str)
  | returned (result : ArgMap)
  deriving DecidableEq

/-- The newline character appended by the help-message builder. -/
def newline : Nat := 10

/-- The label padding `opt.padEnd(40)`. -/
def padEnd40 (s : Str) : Str := s ++ List.replicate (40 - s.length) 32

/-- One help section rendered: a title line and one padded line per option. -/
def renderSection (sec : HelpSection) : Str :=
  [newline] ++ sec.title ++ strOf ":" ++ [newline]
    ++ sec.options.foldl (fun a p => a ++ strOf "  " ++ padEnd40 p.1 ++ p.2 ++ [newline]) []

/--
The auto-generated help message of `processArgs`:
`使用方法: ${commandName} [options]\n`, the optional command description
framed by blank lines, then every help section.
-/
def renderHelpMessage (cmd : Str) (desc : Option Str) (secs : List HelpSection) : Str :=
  strOf "使用方法: " ++ cmd ++ strOf " [options]" ++ [newline]
    ++ (match desc with
        | some d => [newline] ++ d ++ [newline]
        | none => [])
    ++ secs.foldl (fun a sec => a ++ renderSection sec) []

/-- The warning printed when the help sections are empty or undefined. -/
def helpWarnLine : Str :=
  strOf "ヘルプセクションが空または未定義です。スキーマからの自動生成に問題がある可能性があります。"

/-- Info-stream output of the help path. -/
def helpOutLines (cfg : ProcessArgsOptions) (secs : List HelpSection) : List Str :=
  match cfg.customHelpGeneration with
  | some msg => [msg]
  | none => [renderHelpMessage cfg.commandName cfg.commandDescription secs]

/-- Error-stream output of the help path (the empty-sections warning). -/
def helpErrLines (cfg : ProcessArgsOptions) (secs : List HelpSection) : List Str :=
  match cfg.customHelpGeneration with
  | some _ => []
  | none => if secs.isEmpty then [helpWarnLine] else []

/-- The hint line `詳細は ${commandName} --help を確認してください。`. -/
def hintLine (cmd : Str) : Str :=
  strOf "詳細は " ++ cmd ++ strOf " --help を確認してください。"

/-- Issue path rendering: dot-joined segments, or the stringified raw path. -/
def pathDisplay : IssuePath → Str
  | IssuePath.segs ps => List.intercalate (strOf ".") ps
  | IssuePath.raw s => s

/-- One issue line: `  - (issue) ${path} (${issue.code}): ${issue.message}`. -/
def issueLine (i : Issue) : Str :=
  strOf "  - (issue) " ++ pathDisplay i.path ++ strOf " (" ++ i.code ++ strOf "): " ++ i.message

/-- The line `引数の検証に失敗しました。` (first error line of the failure path). -/
def validationFailLine : Str := strOf "引数の検証に失敗しました。"

/-- The line `エラーは ZodError のインスタンスです。`. -/
def zodInstanceLine : Str := strOf "エラーは ZodError のインスタンスです。"

/-- The line `エラーは ZodError のインスタンスではありません。`. -/
def notZodInstanceLine : Str := strOf "エラーは ZodError のインスタンスではありません。"

/-- The `finalParseOptions` value: caller-supplied parse options or the generated ones. -/
def finalParseOptionsOf (cfg : ProcessArgsOptions) : ParseOpts :=
  cfg.parseArgsOptions.getD (generateOptionsFromSchema cfg.zodSchema).1

/-- The `finalHelpSections` value: caller-supplied help sections or the generated ones. -/
def finalHelpSectionsOf (cfg : ProcessArgsOptions) : List HelpSection :=
  cfg.helpSections.getD (generateOptionsFromSchema cfg.zodSchema).2

/-- The `camelCasedArgs` map: the raw parsed map after the two normalizer steps. -/
def normalizedOf (cfg : ProcessArgsOptions) (rawArgs : ArgMap) : ArgMap :=
  normalizeArgs (ensureOpts (finalParseOptionsOf cfg)).«alias» rawArgs

/--
Function `processArgs` from the parsed raw argument map on: build-or-accept parser
configuration and help sections, normalize the raw map (alias expansion,
then camel casing), then branch: a truthy `help` key emits the help message
and exits 0; otherwise the normalized map is validated — success returns the
typed result, a `ZodError` prints one line per issue plus the `--help` hint
and exits 1, and any other error is reported generically and exits 1.
The validation routine is a parameter (it is the external schema's own).
-/
def processArgsFromRaw (validate : ArgMap → VResult) (cfg : ProcessArgsOptions)
    (rawArgs : ArgMap) : Outcome :=
  if (lookupA (normalizedOf cfg rawArgs) (strOf "help")).elim false Value.truthy then
    Outcome.exited 0 (helpOutLines cfg (finalHelpSectionsOf cfg))
      (helpErrLines cfg (finalHelpSectionsOf cfg))
  else
    match validate (normalizedOf cfg rawArgs) with
    | VResult.ok r => Outcome.returned r
    | VResult.issues is =>
      Outcome.exited 1 [zodInstanceLine, hintLine cfg.commandName]
        (validationFailLine :: is.map issueLine)
    | VResult.nonIssueError _ =>
      Outcome.exited 1 [hintLine cfg.commandName] [validationFailLine, notZodInstanceLine]

/--
Function `processArgs` from `src/args.ts`, end to end: run the (spec-modelled)
external ArgumentParser on the raw tokens under the ensured parse options,
then continue as `processArgsFromRaw` with the (spec-modelled) external
schema validation.
-/
def processArgs (rawDenoArgs : List Str) (cfg : ProcessArgsOptions) : Outcome :=
  processArgsFromRaw (zodParse cfg.zodSchema) cfg
    (parseTokens (ensureOpts (finalParseOptionsOf cfg)) rawDenoArgs)

/-- Every character is an ASCII letter or digit. -/
def allAlnumS (s : Str) : Bool := s.all isAlnumC

/--
Every upper-case character of `prev :: s` that lies in `s` is immediately
preceded by a lower-case letter or digit (a camelCase boundary).
-/
def camelChainOk : Nat → Str → Bool
  | _, [] => true
  | prev, c :: rest => (!(isUpperC c) || lowerOrDigit prev) && camelChainOk c rest

/--
A camelCase field key: it does not start with an upper-case character and
every upper-case character sits at a camelCase boundary (immediately after a
lower-case letter or digit).
-/
def camelKeyOk : Str → Bool
  | [] => true
  | c :: rest => !(isUpperC c) && camelChainOk c rest

/-- No two adjacent upper-case characters (the claim's literal precondition). -/
def noAdjUpper : Str → Bool
  | [] => true
  | [_] => true
  | c1 :: c2 :: rest => !(isUpperC c1 && isUpperC c2) && noAdjUpper (c2 :: rest)

/-- The names a field contributes to the string flag list. -/
def stringPushes (f : Field) : List Str :=
  match f.base with
  | ZBase.zBoolean => []
  | _ => camelToKebab f.key :: f.«alias».toList

/-- The names a field contributes to the boolean flag list. -/
def boolPushes (f : Field) : List Str :=
  match f.base with
  | ZBase.zBoolean => camelToKebab f.key :: f.«alias».toList
  | _ => []

/-- The flag list a base kind is routed into (booleans apart, all go to string). -/
def routedFlags (p : ParseOpts) : ZBase → List Str
  | ZBase.zBoolean => p.boolean
  | _ => p.string

/-- The value of the last entry of `m` whose transformed key is `tk`. -/
def lastTargetVal (tk : Str) : ArgMap → Option Value
  | [] => none
  | e :: rest =>
    match lastTargetVal tk rest with
    | some v => some v
    | none => if targetKey e.1 = tk then some e.2 else none

/-- Demo field: `logLevel`, enum with default `info`, alias `l`. -/
def demoLogLevelField : Field :=
  ⟨strOf "logLevel", [Wrapper.wDefault (Value.vStr (strOf "info"))],
    ZBase.zEnum [strOf "debug", strOf "info", strOf "warn", strOf "error"],
    some (strOf "l"), strOf "log level"⟩

/-- Demo field: required string `name`, alias `N`. -/
def demoNameField : Field :=
  ⟨strOf "name", [], ZBase.zString, some (strOf "N"), strOf "your name"⟩

/-- Demo field with an unrecognized base kind. -/
def demoOtherField : Field :=
  ⟨strOf "payload", [], ZBase.zOther, some (strOf "p"), strOf "raw payload"⟩

/-- Demo schema with a defaulted enum field and a required string field. -/
def demoSchema : Schema := [demoLogLevelField, demoNameField]

/-- Demo configuration: auto-generated options and help for `demoSchema`. -/
def demoCfg : ProcessArgsOptions :=
  ⟨demoSchema, none, none, strOf "demo", none, none⟩

/-- Single-field demo configuration (defaulted enum field only). -/
def demoCfgLog : ProcessArgsOptions :=
  ⟨[demoLogLevelField], none, none, strOf "demo", none, none⟩

/-- A raw parsed map as the external parser returns it for input `-l x`. -/
def demoRawAlias : ArgMap :=
  [(strOf "_", Value.vList []), (strOf "l", Value.vStr (strOf "x")),
   (strOf "log-level", Value.vStr (strOf "x")), (strOf "help", Value.vBool false)]

/-- The alias table generated for `demoSchema` (plus the ensured `h`). -/
def demoTab : AList Str :=
  [(strOf "l", strOf "log-level"), (strOf "h", strOf "help")]

/-- A raw map carrying different values on a long flag and on its alias. -/
def demoRawBoth : ArgMap :=
  [(strOf "log-level", Value.vStr (strOf "x")), (strOf "l", Value.vStr (strOf "y"))]

/-- A field under a deep, mixed wrapper chain with an inner default. -/
def demoDeepField : Field :=
  ⟨strOf "retryCount",
    [Wrapper.wEffects, Wrapper.wOptional, Wrapper.wNullable,
     Wrapper.wDefault (Value.vStr (strOf "3")), Wrapper.wEffects],
    ZBase.zNumber, none, strOf "retries"⟩

/-- A concrete validation issue. -/
def demoIssue : Issue :=
  ⟨IssuePath.segs [strOf "name"], strOf "invalid_type", strOf "Required"⟩

/-- A configuration with an empty schema and command name `my-script`. -/
def demoCfgEnglish : ProcessArgsOptions :=
  ⟨[], none, none, strOf "my-script", none, none⟩

/-! ## Character-level lemmas for the name normalizer -/

theorem toLowerC_of_not_upper {c : Nat} (h : isUpperC c = false) : toLowerC c = c := by
  simp [toLowerC, h]

theorem not_upper_of_lowerOrDigit {c : Nat} (h : lowerOrDigit c = true) : isUpperC c = false := by
  simp [lowerOrDigit, isLowerC, isDigitC] at h
  simp [isUpperC]
  omega

theorem lowerOrDigit_ne_hyph {c : Nat} (h : lowerOrDigit c = true) : c ≠ hyph := by
  simp [lowerOrDigit, isLowerC, isDigitC] at h
  simp [hyph]
  omega

theorem alnum_ne_hyph {c : Nat} (h : isAlnumC c = true) : c ≠ hyph := by
  simp [isAlnumC, isUpperC, isLowerC, isDigitC] at h
  simp [hyph]
  omega

theorem isLowerC_toLowerC {c : Nat} (h : isUpperC c = true) : isLowerC (toLowerC c) = true := by
  have e : toLowerC c = c + 32 := by simp [toLowerC, h]
  simp only [isUpperC, Bool.and_eq_true, decide_eq_true_eq] at h
  rw [e]
  simp only [isLowerC, Bool.and_eq_true, decide_eq_true_eq]
  omega

theorem toUpperC_toLowerC {c : Nat} (h : isUpperC c = true) : toUpperC (toLowerC c) = c := by
  have e : toLowerC c = c + 32 := by simp [toLowerC, h]
  simp only [isUpperC, Bool.and_eq_true, decide_eq_true_eq] at h
  rw [e]
  have e2 : isLowerC (c + 32) = true := by
    simp only [isLowerC, Bool.and_eq_true, decide_eq_true_eq]
    omega
  simp [toUpperC, e2]

theorem not_lowerOrDigit_of_upper {c : Nat} (h : isUpperC c = true) : lowerOrDigit c = false := by
  simp [isUpperC] at h
  simp [lowerOrDigit, isLowerC, isDigitC]
  omega

/-! ## Unfolding lemmas for `camelToKebab` and `kebabToCamel` -/

theorem ctk_single (c : Nat) : camelToKebab [c] = [toLowerC c] := rfl

theorem ctk_cons_boundary {c1 c2 : Nat} (t : Str) (h : (lowerOrDigit c1 && isUpperC c2) = true) :
    camelToKebab (c1 :: c2 :: t) = toLowerC c1 :: hyph :: camelToKebab (c2 :: t) := by
  have hh : toLowerC hyph = hyph := by decide
  simp [camelToKebab, insertKebabHyphens, h, hh]

theorem ctk_cons_flat {c1 c2 : Nat} (t : Str) (h : (lowerOrDigit c1 && isUpperC c2) = false) :
    camelToKebab (c1 :: c2 :: t) = toLowerC c1 :: camelToKebab (c2 :: t) := by
  simp [camelToKebab, insertKebabHyphens, h]

theorem ctk_upper_head {c : Nat} (t : Str) (h : isUpperC c = true) :
    camelToKebab (c :: t) = toLowerC c :: camelToKebab t := by
  cases t with
  | nil => exact ctk_single c
  | cons d t2 =>
    apply ctk_cons_flat
    simp [not_lowerOrDigit_of_upper h]

theorem ktc_cons_ne {c : Nat} (t : Str) (h : c ≠ hyph) :
    kebabToCamel (c :: t) = c :: kebabToCamel t := by
  cases t with
  | nil => simp [kebabToCamel, h]
  | cons d t2 => simp [kebabToCamel, h]

theorem ktc_hyph_lower {c : Nat} (t : Str) (h : isLowerC c = true) :
    kebabToCamel (hyph :: c :: t) = toUpperC c :: kebabToCamel t := by
  simp [kebabToCamel, h]

/-! ## The camel/kebab round trip -/

theorem chainOk_after_upper {p : Nat} {t : Str} (hp : isUpperC p = true)
    (h : camelChainOk p t = true) : camelKeyOk t = true := by
  cases t with
  | nil => rfl
  | cons d t2 =>
    simp [camelChainOk, not_lowerOrDigit_of_upper hp] at h
    simp [camelKeyOk, h.1, h.2]

/--
The camel-to-kebab-to-camel round trip: for every key consisting of ASCII
letters and digits whose upper-case characters all sit at camelCase
boundaries, `kebabToCamel (camelToKebab k) = k`.
-/
theorem kebabToCamel_camelToKebab :
    ∀ s : Str, allAlnumS s = true → camelKeyOk s = true →
      kebabToCamel (camelToKebab s) = s
  | [], _, _ => rfl
  | [c], h1, h2 => by
    have hc : isAlnumC c = true := by simpa [allAlnumS] using h1
    have hu : isUpperC c = false := by simpa [camelKeyOk, camelChainOk] using h2
    rw [ctk_single, toLowerC_of_not_upper hu, ktc_cons_ne _ (alnum_ne_hyph hc)]
    rfl
  | c1 :: c2 :: rest, h1, h2 => by
    have hc1 : isAlnumC c1 = true := by
      have := h1
      simp [allAlnumS, List.all_cons] at this
      exact this.1
    have h1t : allAlnumS (c2 :: rest) = true := by
      have := h1
      simp [allAlnumS, List.all_cons] at this ⊢
      exact ⟨this.2.1, this.2.2⟩
    have hk := h2
    simp [camelKeyOk, camelChainOk] at hk
    obtain ⟨hu1, hbd, hchain⟩ := hk
    by_cases hup : isUpperC c2 = true
    · have hld : lowerOrDigit c1 = true := by
        rcases hbd with hbd | hbd
        · rw [hup] at hbd; exact absurd hbd (by simp)
        · exact hbd
      rw [ctk_cons_boundary _ (by simp [hld, hup])]
      rw [ctk_upper_head _ hup]
      rw [toLowerC_of_not_upper (not_upper_of_lowerOrDigit hld)]
      rw [ktc_cons_ne _ (lowerOrDigit_ne_hyph hld)]
      rw [ktc_hyph_lower _ (isLowerC_toLowerC hup)]
      rw [toUpperC_toLowerC hup]
      have h1r : allAlnumS rest = true := by
        have := h1t
        simp [allAlnumS, List.all_cons] at this ⊢
        exact this.2
      have h2r : camelKeyOk rest = true := chainOk_after_upper hup hchain
      rw [kebabToCamel_camelToKebab rest h1r h2r]
    · rw [ctk_cons_flat _ (by simp [hup])]
      rw [toLowerC_of_not_upper (by simpa using hu1)]
      rw [ktc_cons_ne _ (alnum_ne_hyph hc1)]
      have h2t : camelKeyOk (c2 :: rest) = true := by
        simp [camelKeyOk, camelChainOk, hup]
        exact hchain
      rw [kebabToCamel_camelToKebab (c2 :: rest) h1t h2t]

/--
C3 witness: the round trip holds at the concrete camelCase key `logLevel`.
-/
theorem kebabToCamel_camelToKebab_witness :
    allAlnumS (strOf "logLevel") = true ∧ camelKeyOk (strOf "logLevel") = true ∧
      kebabToCamel (camelToKebab (strOf "logLevel")) = strOf "logLevel" :=
  ⟨by decide, by decide,
    kebabToCamel_camelToKebab (strOf "logLevel") (by decide) (by decide)⟩

/--
C3 counterexample: the key `Abc` consists only of letters and has no
adjacent-upper-case run, yet the round trip lower-cases its leading capital:
`kebabToCamel (camelToKebab "Abc") = "abc" ≠ "Abc"`.
-/
theorem camel_roundtrip_needs_lowercase_start :
    allAlnumS (strOf "Abc") = true ∧ noAdjUpper (strOf "Abc") = true ∧
      kebabToCamel (camelToKebab (strOf "Abc")) ≠ strOf "Abc" := by
  refine ⟨by decide, by decide, by decide⟩

/-! ## Association-list lemmas -/

theorem lookupA_setA {α : Type} (m : AList α) (k k2 : Str) (v : α) :
    lookupA (setA m k v) k2 = if k = k2 then some v else lookupA m k2 := by
  induction m with
  | nil =>
    by_cases h : k = k2 <;> simp [setA, lookupA, h]
  | cons e rest ih =>
    obtain ⟨k1, v1⟩ := e
    by_cases h1 : k1 = k
    · subst h1
      simp only [setA, if_pos rfl, lookupA]
      by_cases h2 : k1 = k2 <;> simp [h2]
    · simp only [setA, if_neg h1, lookupA, ih]
      by_cases h2 : k1 = k2
      · subst h2
        have hk : ¬ k = k1 := fun hh => h1 hh.symm
        simp [hk]
      · simp [h2]

theorem hasKey_setA {α : Type} (m : AList α) (k k2 : Str) (v : α) :
    hasKey (setA m k v) k2 = (decide (k = k2) || hasKey m k2) := by
  by_cases h : k = k2 <;> simp [hasKey, lookupA_setA, h]

theorem lookupA_mem {α : Type} : ∀ {m : AList α} {k : Str} {v : α},
    lookupA m k = some v → (k, v) ∈ m := by
  intro m
  induction m with
  | nil => intro k v h; simp [lookupA] at h
  | cons e rest ih =>
    intro k v h
    obtain ⟨k1, v1⟩ := e
    by_cases h1 : k1 = k
    · subst h1
      simp [lookupA] at h
      simp [h]
    · simp [lookupA, h1] at h
      exact List.mem_cons_of_mem _ (ih h)

theorem lookupA_eq_of_mem_nodup {α : Type} :
    ∀ {m : AList α}, keysNodup m → ∀ {k : Str} {v : α}, (k, v) ∈ m → lookupA m k = some v := by
  intro m
  induction m with
  | nil => intro _ k v h; simp at h
  | cons e rest ih =>
    intro hnd k v h
    obtain ⟨k1, v1⟩ := e
    unfold keysNodup at hnd
    rw [List.map_cons, List.nodup_cons] at hnd
    rcases List.mem_cons.mp h with h0 | h0
    · injection h0 with hk hv
      subst hk
      subst hv
      simp [lookupA]
    · have hk1 : k1 ≠ k := by
        intro he
        apply hnd.1
        subst he
        exact List.mem_map.mpr ⟨(k1, v), h0, rfl⟩
      simp only [lookupA, if_neg hk1]
      exact ih hnd.2 h0

/-! ## Normalizer lemmas -/

theorem lookupA_aliasStep {m : ArgMap} {k : Str} {v : Value} (p : Str × Str)
    (h : lookupA m k = some v) : lookupA (aliasStep m p) k = some v := by
  unfold aliasStep
  cases hl : lookupA m p.1 with
  | none => exact h
  | some w =>
    simp only []
    by_cases hk : hasKey m p.2 = true
    · rw [if_pos hk]; exact h
    · rw [if_neg hk, lookupA_setA]
      by_cases he : p.2 = k
      · exfalso
        apply hk
        rw [he]
        simp [hasKey, h]
      · rw [if_neg he]; exact h

theorem lookupA_aliasExpand (tab : AList Str) {raw : ArgMap} {k : Str} {v : Value}
    (h : lookupA raw k = some v) : lookupA (aliasExpand tab raw) k = some v := by
  induction tab generalizing raw with
  | nil => exact h
  | cons p tab2 ih => exact ih (lookupA_aliasStep p h)

theorem hasKey_camelize_foldl (m : ArgMap) (init : ArgMap) (k : Str) :
    hasKey (m.foldl (fun acc e => setA acc (targetKey e.1) e.2) init) k
      = (hasKey init k || m.any fun e => targetKey e.1 = k) := by
  induction m generalizing init with
  | nil => simp
  | cons e m2 ih =>
    simp only [List.foldl_cons, ih, hasKey_setA, List.any_cons]
    by_cases h : targetKey e.1 = k
    · simp [h]
    · simp [h]

theorem lastTargetVal_none_iff (tk0 : Str) (m : ArgMap) :
    lastTargetVal tk0 m = none ↔ ∀ e ∈ m, ¬(targetKey e.1 = tk0) := by
  induction m with
  | nil => simp [lastTargetVal]
  | cons e m2 ih =>
    simp only [lastTargetVal, List.mem_cons]
    cases hl : lastTargetVal tk0 m2 with
    | some w =>
      simp only []
      constructor
      · intro h; exact absurd h (by simp)
      · intro h
        have := (ih.mpr fun e2 he2 => h e2 (Or.inr he2))
        rw [hl] at this
        exact absurd this (by simp)
    | none =>
      by_cases h : targetKey e.1 = tk0
      · rw [if_pos h]
        constructor
        · intro hh; exact absurd hh (by simp)
        · intro hh; exact absurd h (hh e (Or.inl rfl))
      · rw [if_neg h]
        constructor
        · intro _ e2 he2
          rcases he2 with he2 | he2
          · rw [he2]; exact h
          · exact (ih.mp hl) e2 he2
        · intro _; rfl

theorem lastTargetVal_mem (tk0 : Str) :
    ∀ {m : ArgMap} {w : Value}, lastTargetVal tk0 m = some w →
      ∃ e ∈ m, targetKey e.1 = tk0 ∧ e.2 = w := by
  intro m
  induction m with
  | nil => intro w h; simp [lastTargetVal] at h
  | cons e m2 ih =>
    intro w h
    simp only [lastTargetVal] at h
    cases hl : lastTargetVal tk0 m2 with
    | some w2 =>
      rw [hl] at h
      simp at h
      obtain ⟨e2, he2, hp⟩ := ih hl
      exact ⟨e2, List.mem_cons_of_mem _ he2, hp.1, hp.2.trans h⟩
    | none =>
      rw [hl] at h
      simp only [] at h
      by_cases ht : targetKey e.1 = tk0
      · rw [if_pos ht] at h
        exact ⟨e, List.mem_cons_self _ _, ht, Option.some.inj h⟩
      · rw [if_neg ht] at h
        simp at h

theorem lastTargetVal_unique (tk0 : Str) (m : ArgMap) (v : Value)
    (hex : ∃ e ∈ m, targetKey e.1 = tk0)
    (hall : ∀ e ∈ m, targetKey e.1 = tk0 → e.2 = v) :
    lastTargetVal tk0 m = some v := by
  cases hl : lastTargetVal tk0 m with
  | some w =>
    obtain ⟨e, he, ht, hv⟩ := lastTargetVal_mem tk0 hl
    rw [← hv, hall e he ht]
  | none =>
    obtain ⟨e, he, ht⟩ := hex
    exact absurd ht ((lastTargetVal_none_iff tk0 m).mp hl e he)

theorem lookupA_camelize_foldl (m : ArgMap) (init : ArgMap) (k : Str) :
    lookupA (m.foldl (fun acc e => setA acc (targetKey e.1) e.2) init) k
      = match lastTargetVal k m with
        | some v => some v
        | none => lookupA init k := by
  induction m generalizing init with
  | nil => simp [lastTargetVal]
  | cons e m2 ih =>
    simp only [List.foldl_cons, ih, lastTargetVal]
    cases hl : lastTargetVal k m2 with
    | some w => simp
    | none =>
      simp only [lookupA_setA]
      by_cases h : targetKey e.1 = k <;> simp [h]

theorem hasKey_iff_mem_keys {α : Type} (m : AList α) (k : Str) :
    hasKey m k = true ↔ k ∈ m.map Prod.fst := by
  induction m with
  | nil => simp [hasKey, lookupA]
  | cons e rest ih =>
    obtain ⟨k1, v1⟩ := e
    by_cases h : k1 = k
    · subst h
      simp [hasKey, lookupA]
    · have hne : ¬ k = k1 := fun hh => h hh.symm
      simp [hasKey, lookupA, h, hne] at ih ⊢
      exact ih

theorem keys_setA {α : Type} (m : AList α) (k : Str) (v : α) :
    (setA m k v).map Prod.fst =
      if hasKey m k then m.map Prod.fst else m.map Prod.fst ++ [k] := by
  induction m with
  | nil => simp [setA, hasKey, lookupA]
  | cons e rest ih =>
    obtain ⟨k1, v1⟩ := e
    by_cases h : k1 = k
    · subst h
      simp [setA, hasKey, lookupA]
    · have hh : hasKey ((k1, v1) :: rest) k = hasKey rest k := by
        simp [hasKey, lookupA, h]
      rw [hh]
      by_cases h2 : hasKey rest k = true
      · simp [setA, h, h2, ih]
      · simp [setA, h, h2, ih]

theorem keysNodup_setA {α : Type} {m : AList α} (k : Str) (v : α)
    (h : keysNodup m) : keysNodup (setA m k v) := by
  unfold keysNodup at h ⊢
  rw [keys_setA]
  by_cases h2 : hasKey m k = true
  · simp [h2, h]
  · simp only [h2, Bool.false_eq_true, if_false]
    rw [List.nodup_append]
    refine ⟨h, List.nodup_singleton _, ?_⟩
    intro a ha hb
    simp at hb
    subst hb
    exact h2 ((hasKey_iff_mem_keys m a).mpr ha)

theorem keysNodup_aliasStep {m : ArgMap} (p : Str × Str)
    (h : keysNodup m) : keysNodup (aliasStep m p) := by
  unfold aliasStep
  cases lookupA m p.1 with
  | none => exact h
  | some w =>
    simp only []
    by_cases hk : hasKey m p.2 = true
    · rw [if_pos hk]; exact h
    · rw [if_neg hk]; exact keysNodup_setA _ _ h

theorem keysNodup_aliasExpand (tab : AList Str) {raw : ArgMap}
    (h : keysNodup raw) : keysNodup (aliasExpand tab raw) := by
  induction tab generalizing raw with
  | nil => exact h
  | cons p tab2 ih => exact ih (keysNodup_aliasStep p h)

/--
C1 (amended): the key set of the normalized map is exactly the image of the
alias-expanded raw map's keys under the step-2 transformation (`_` passes
through, other keys are camel-cased); in particular alias-token keys — which
the normalizer never deletes — remain in the map as their own camelized
image, so the key set is not limited to the schema's field keys plus the
sentinel and `help`.
-/
theorem normalizeArgs_key_set (tab : AList Str) (raw : ArgMap) (k : Str) :
    hasKey (normalizeArgs tab raw) k
      = (aliasExpand tab raw).any (fun e => targetKey e.1 = k) := by
  unfold normalizeArgs camelizeArgs
  rw [hasKey_camelize_foldl]
  simp [hasKey, lookupA]

/--
C1 counterexample: for the single-field schema `{logLevel}` (alias `l`) and
the raw parsed map produced for input `-l x`, the normalized map still
contains the alias-token key `l`, which is neither a declared camelCase
field key nor the sentinel `_` nor `help`.
-/
theorem alias_key_remains_after_normalization :
    hasKey
        (normalizeArgs
          (ensureOpts (generateOptionsFromSchema [demoLogLevelField]).1).«alias»
          demoRawAlias)
        (strOf "l") = true
    ∧ [demoLogLevelField].map Field.key = [strOf "logLevel"]
    ∧ strOf "l" ≠ strOf "logLevel" ∧ strOf "l" ≠ underscoreKey ∧ strOf "l" ≠ strOf "help" := by
  decide

/--
C2: alias expansion copies the alias's value onto the kebab flag key only
when that key is absent, so an existing canonical entry is never
overwritten: when the raw map carries `v1` on the flag's own key `k` and
`v2` on its alias `a`, the expanded map still carries `v1` on `k`, and the
normalized (camel-cased) map carries `v1` on the camelized field key.
-/
theorem alias_never_overwrites_canonical
    (tab : AList Str) (raw : ArgMap) (a k : Str) (v1 v2 : Value)
    (hmem : (a, k) ∈ tab)
    (hk : lookupA raw k = some v1)
    (ha : lookupA raw a = some v2)
    (hu : keysNodup raw)
    (hk0 : k ≠ underscoreKey)
    (hcol : ∀ e ∈ aliasExpand tab raw, targetKey e.1 = targetKey k → e.1 = k) :
    lookupA (aliasExpand tab raw) k = some v1 ∧
      lookupA (normalizeArgs tab raw) (kebabToCamel k) = some v1 := by
  have h1 : lookupA (aliasExpand tab raw) k = some v1 := lookupA_aliasExpand tab hk
  refine ⟨h1, ?_⟩
  have htk : targetKey k = kebabToCamel k := by simp [targetKey, hk0]
  have hnd : keysNodup (aliasExpand tab raw) := keysNodup_aliasExpand tab hu
  have hlast : lastTargetVal (targetKey k) (aliasExpand tab raw) = some v1 := by
    apply lastTargetVal_unique
    · exact ⟨(k, v1), lookupA_mem h1, htk ▸ rfl⟩
    · intro e he ht
      have he1 : e.1 = k := hcol e he ht
      have hee : (e.1, e.2) ∈ aliasExpand tab raw := by simpa using he
      have hl2 : lookupA (aliasExpand tab raw) e.1 = some e.2 :=
        lookupA_eq_of_mem_nodup hnd hee
      rw [he1, h1] at hl2
      exact (Option.some.inj hl2).symm
  unfold normalizeArgs camelizeArgs
  rw [lookupA_camelize_foldl, ← htk, hlast]

/--
C2 witness: with the generated alias table, a raw map carrying `x` on
`log-level` and `y` on alias `l` normalizes to `logLevel = x`.
-/
theorem alias_never_overwrites_canonical_witness :
    lookupA (normalizeArgs demoTab demoRawBoth) (kebabToCamel (strOf "log-level"))
      = some (Value.vStr (strOf "x")) :=
  (alias_never_overwrites_canonical demoTab demoRawBoth (strOf "l") (strOf "log-level")
    (Value.vStr (strOf "x")) (Value.vStr (strOf "y"))
    (by decide) (by decide) (by decide) (by decide) (by decide) (by decide)).2

/-! ## Introspection (`generateOptionsFromSchema`) lemmas -/

theorem processField_string (acc : GenAcc) (f : Field) :
    (processField acc f).opts.string = acc.opts.string ++ stringPushes f := by
  cases hb : f.base <;> simp [processField, stringPushes, hb]

theorem processField_boolean (acc : GenAcc) (f : Field) :
    (processField acc f).opts.boolean = acc.opts.boolean ++ boolPushes f := by
  cases hb : f.base <;> simp [processField, boolPushes, hb]

theorem processField_default (acc : GenAcc) (f : Field) :
    (processField acc f).opts.default
      = recordDefaults (camelToKebab f.key) f.wrappers acc.opts.default := by
  cases hb : f.base <;> simp [processField, hb]

theorem foldl_processField_string_mono (l : Schema) (acc : GenAcc) :
    ∃ suffix, (l.foldl processField acc).opts.string = acc.opts.string ++ suffix := by
  induction l generalizing acc with
  | nil => exact ⟨[], by simp⟩
  | cons f l2 ih =>
    obtain ⟨s2, hs2⟩ := ih (processField acc f)
    exact ⟨stringPushes f ++ s2, by
      simp [List.foldl_cons, hs2, processField_string, List.append_assoc]⟩

theorem foldl_processField_boolean_mono (l : Schema) (acc : GenAcc) :
    ∃ suffix, (l.foldl processField acc).opts.boolean = acc.opts.boolean ++ suffix := by
  induction l generalizing acc with
  | nil => exact ⟨[], by simp⟩
  | cons f l2 ih =>
    obtain ⟨s2, hs2⟩ := ih (processField acc f)
    exact ⟨boolPushes f ++ s2, by
      simp [List.foldl_cons, hs2, processField_boolean, List.append_assoc]⟩

theorem mem_string_foldl (f : Field) (k : Str) (hk : k ∈ stringPushes f) :
    ∀ (l : Schema) (acc : GenAcc), f ∈ l →
      k ∈ (l.foldl processField acc).opts.string := by
  intro l
  induction l with
  | nil => intro acc hf; simp at hf
  | cons g l2 ih =>
    intro acc hf
    rcases List.mem_cons.mp hf with hf | hf
    · subst hf
      obtain ⟨s2, hs2⟩ := foldl_processField_string_mono l2 (processField acc f)
      rw [List.foldl_cons, hs2, processField_string]
      exact List.mem_append_left _ (List.mem_append_right _ hk)
    · exact ih (processField acc g) hf

theorem mem_bool_foldl (f : Field) (k : Str) (hk : k ∈ boolPushes f) :
    ∀ (l : Schema) (acc : GenAcc), f ∈ l →
      k ∈ (l.foldl processField acc).opts.boolean := by
  intro l
  induction l with
  | nil => intro acc hf; simp at hf
  | cons g l2 ih =>
    intro acc hf
    rcases List.mem_cons.mp hf with hf | hf
    · subst hf
      obtain ⟨s2, hs2⟩ := foldl_processField_boolean_mono l2 (processField acc f)
      rw [List.foldl_cons, hs2, processField_boolean]
      exact List.mem_append_left _ (List.mem_append_right _ hk)
    · exact ih (processField acc g) hf

theorem gen_string (s : Schema) :
    (generateOptionsFromSchema s).1.string
      = (s.foldl processField ⟨⟨[], [], [], []⟩, []⟩).opts.string := by
  simp [generateOptionsFromSchema]

theorem gen_boolean (s : Schema) :
    (generateOptionsFromSchema s).1.boolean
      = (s.foldl processField ⟨⟨[], [], [], []⟩, []⟩).opts.boolean ++ [strOf "help"] := by
  simp [generateOptionsFromSchema]

theorem gen_default (s : Schema) :
    (generateOptionsFromSchema s).1.default
      = (s.foldl processField ⟨⟨[], [], [], []⟩, []⟩).opts.default := by
  simp [generateOptionsFromSchema]

theorem gen_alias_h (s : Schema) :
    lookupA (generateOptionsFromSchema s).1.«alias» (strOf "h") = some (strOf "help") := by
  simp [generateOptionsFromSchema, lookupA_setA]

/--
C4: every generated parser configuration contains the boolean flag `help`
and the alias binding `h → help`; and the ensured configuration built from
any caller-supplied parse options also contains them, the `h` binding
overwriting whatever the caller bound `h` to.
-/
theorem help_flag_always_present :
    (∀ s : Schema,
      lookupA (generateOptionsFromSchema s).1.«alias» (strOf "h") = some (strOf "help")
      ∧ strOf "help" ∈ (generateOptionsFromSchema s).1.boolean)
    ∧ (∀ p : ParseOpts,
      lookupA (ensureOpts p).«alias» (strOf "h") = some (strOf "help")
      ∧ strOf "help" ∈ (ensureOpts p).boolean) := by
  refine ⟨fun s => ⟨gen_alias_h s, ?_⟩, fun p => ⟨?_, ?_⟩⟩
  · rw [gen_boolean]
    exact List.mem_append_right _ (List.mem_singleton.mpr rfl)
  · simp [ensureOpts, lookupA_setA]
  · simp [ensureOpts]

/--
C7: a field whose unwrapped base kind is unrecognized is routed — kebab key
and alias token alike — into the string flag list, and option generation (a
total function) completes for it like for any other field.
-/
theorem unrecognized_kind_degrades_to_string (s : Schema) (f : Field)
    (hf : f ∈ s) (hb : f.base = ZBase.zOther) :
    camelToKebab f.key ∈ (generateOptionsFromSchema s).1.string
    ∧ ∀ a, f.«alias» = some a → a ∈ (generateOptionsFromSchema s).1.string := by
  constructor
  · rw [gen_string]
    exact mem_string_foldl f _ (by simp [stringPushes, hb]) s _ hf
  · intro a haa
    rw [gen_string]
    exact mem_string_foldl f _ (by simp [stringPushes, hb, haa]) s _ hf

/--
C7 witness: the unrecognized-kind field `payload` (alias `p`) lands in the
string flag list of its generated configuration.
-/
theorem unrecognized_kind_degrades_to_string_witness :
    camelToKebab demoOtherField.key ∈ (generateOptionsFromSchema [demoOtherField]).1.string
    ∧ strOf "p" ∈ (generateOptionsFromSchema [demoOtherField]).1.string := by
  have h := unrecognized_kind_degrades_to_string [demoOtherField] demoOtherField
    (by decide) (by decide)
  exact ⟨h.1, h.2 (strOf "p") (by decide)⟩

theorem recordDefaults_lookup_self (kb : Str) (ws : List Wrapper) (d0 : ArgMap) :
    lookupA (recordDefaults kb ws d0) kb
      = match lastDefault ws with
        | some v => some v
        | none => lookupA d0 kb := by
  induction ws generalizing d0 with
  | nil => simp [recordDefaults, lastDefault]
  | cons w ws2 ih =>
    cases w with
    | wDefault v =>
      simp only [recordDefaults, List.foldl_cons] at ih ⊢
      rw [ih]
      cases hld : lastDefault ws2 with
      | some u => simp [lastDefault, hld]
      | none => simp [lastDefault, hld, lookupA_setA]
    | wOptional =>
      simp only [recordDefaults, List.foldl_cons] at ih ⊢
      rw [ih]
      simp [lastDefault]
    | wNullable =>
      simp only [recordDefaults, List.foldl_cons] at ih ⊢
      rw [ih]
      simp [lastDefault]
    | wEffects =>
      simp only [recordDefaults, List.foldl_cons] at ih ⊢
      rw [ih]
      simp [lastDefault]

theorem recordDefaults_lookup_other {kb k : Str} (ws : List Wrapper) (d0 : ArgMap)
    (hk : k ≠ kb) :
    lookupA (recordDefaults kb ws d0) k = lookupA d0 k := by
  induction ws generalizing d0 with
  | nil => rfl
  | cons w ws2 ih =>
    cases w with
    | wDefault v =>
      simp only [recordDefaults, List.foldl_cons] at ih ⊢
      rw [ih, lookupA_setA, if_neg (fun hh => hk hh.symm)]
    | wOptional => exact ih d0
    | wNullable => exact ih d0
    | wEffects => exact ih d0

theorem foldl_processField_default_preserved (k : Str) :
    ∀ (l : Schema) (acc : GenAcc), (∀ g ∈ l, camelToKebab g.key ≠ k) →
      lookupA (l.foldl processField acc).opts.default k = lookupA acc.opts.default k := by
  intro l
  induction l with
  | nil => intro acc _; rfl
  | cons g l2 ih =>
    intro acc hno
    rw [List.foldl_cons, ih _ (fun g2 hg2 => hno g2 (List.mem_cons_of_mem _ hg2)),
      processField_default,
      recordDefaults_lookup_other _ _ (hno g (List.mem_cons_self _ _)).symm]

theorem foldl_processField_default_of_field (f : Field) (d : Value)
    (hd : lastDefault f.wrappers = some d) :
    ∀ (l : Schema) (acc : GenAcc), f ∈ l →
      ((l.map fun g => camelToKebab g.key).Nodup) →
      lookupA (l.foldl processField acc).opts.default (camelToKebab f.key) = some d := by
  intro l
  induction l with
  | nil => intro acc hf _; simp at hf
  | cons g l2 ih =>
    intro acc hf hnd
    rw [List.map_cons, List.nodup_cons] at hnd
    rcases List.mem_cons.mp hf with hf | hf
    · subst hf
      rw [List.foldl_cons,
        foldl_processField_default_preserved _ l2 _ (fun g2 hg2 he =>
          hnd.1 (List.mem_map.mpr ⟨g2, hg2, he⟩)),
        processField_default, recordDefaults_lookup_self, hd]
    · rw [List.foldl_cons]
      exact ih _ hf hnd.2

theorem routed_membership (s : Schema) (f : Field) (hf : f ∈ s) :
    camelToKebab f.key ∈ routedFlags (generateOptionsFromSchema s).1 f.base := by
  cases hb : f.base with
  | zBoolean =>
    simp only [routedFlags]
    rw [gen_boolean]
    exact List.mem_append_left _ (mem_bool_foldl f _ (by simp [boolPushes, hb]) s _ hf)
  | zString =>
    simp only [routedFlags]
    rw [gen_string]
    exact mem_string_foldl f _ (by simp [stringPushes, hb]) s _ hf
  | zNumber =>
    simp only [routedFlags]
    rw [gen_string]
    exact mem_string_foldl f _ (by simp [stringPushes, hb]) s _ hf
  | zEnum vs =>
    simp only [routedFlags]
    rw [gen_string]
    exact mem_string_foldl f _ (by simp [stringPushes, hb]) s _ hf
  | zOther =>
    simp only [routedFlags]
    rw [gen_string]
    exact mem_string_foldl f _ (by simp [stringPushes, hb]) s _ hf

/--
C8: introspection reaches the base kind through any wrapper chain — the
field is routed into the string or boolean flag list purely by its base
kind, whatever the nesting of optional/nullable/default/effects layers —
and when the chain contains default layers the defaults table holds, under
the field's kebab external name, the value of the innermost default layer.
-/
theorem unwrap_records_default_and_classifies (s : Schema) (f : Field) (d : Value)
    (hf : f ∈ s)
    (hnodup : (s.map fun g => camelToKebab g.key).Nodup)
    (hd : lastDefault f.wrappers = some d) :
    lookupA (generateOptionsFromSchema s).1.default (camelToKebab f.key) = some d
    ∧ camelToKebab f.key ∈ routedFlags (generateOptionsFromSchema s).1 f.base := by
  refine ⟨?_, routed_membership s f hf⟩
  rw [gen_default]
  exact foldl_processField_default_of_field f d hd s _ hf hnodup

/--
C8 witness: the field `retryCount` under the chain
effects∘optional∘nullable∘default("3")∘effects over a number base gets its
default recorded under `retry-count` and is routed as a string flag.
-/
theorem unwrap_records_default_and_classifies_witness :
    lookupA (generateOptionsFromSchema [demoDeepField]).1.default
        (camelToKebab demoDeepField.key) = some (Value.vStr (strOf "3"))
    ∧ camelToKebab demoDeepField.key
        ∈ routedFlags (generateOptionsFromSchema [demoDeepField]).1 demoDeepField.base :=
  unwrap_records_default_and_classifies [demoDeepField] demoDeepField
    (Value.vStr (strOf "3")) (by decide) (by decide) (by decide)

/-! ## Orchestrator (`processArgs`) theorems -/

/--
C5: whenever the normalized map's `help` key is truthy, `processArgs` emits
the help output and terminates with exit status 0, whatever the validation
routine would have said — validation is never consulted.
-/
theorem help_short_circuits_validation (validate : ArgMap → VResult)
    (cfg : ProcessArgsOptions) (raw : ArgMap)
    (hh : (lookupA (normalizedOf cfg raw) (strOf "help")).elim false Value.truthy = true) :
    processArgsFromRaw validate cfg raw
      = Outcome.exited 0 (helpOutLines cfg (finalHelpSectionsOf cfg))
          (helpErrLines cfg (finalHelpSectionsOf cfg)) := by
  unfold processArgsFromRaw
  rw [if_pos hh]

/--
C5 witness: with `--help` set and a validator that reports issues for every
input, the outcome is still the help page with exit status 0.
-/
theorem help_short_circuits_validation_witness :
    processArgsFromRaw (fun _ => VResult.issues [demoIssue]) demoCfg
        [(strOf "help", Value.vBool true)]
      = Outcome.exited 0 (helpOutLines demoCfg (finalHelpSectionsOf demoCfg))
          (helpErrLines demoCfg (finalHelpSectionsOf demoCfg)) :=
  help_short_circuits_validation _ demoCfg _ (by decide)

/--
C6: when the normalized map is not a help request and validation raises a
structured issue list, `processArgs` writes `引数の検証に失敗しました。`
followed by one line per issue — `  - (issue) <path> (<code>): <message>`,
the path dot-joined (or the raw path) — to the error stream, writes the
trailing hint line containing `<commandName> --help` to the info stream,
and terminates with exit status 1; no result is returned.
-/
theorem validation_failure_reports_issues (validate : ArgMap → VResult)
    (cfg : ProcessArgsOptions) (raw : ArgMap) (is : List Issue)
    (hh : (lookupA (normalizedOf cfg raw) (strOf "help")).elim false Value.truthy = false)
    (hv : validate (normalizedOf cfg raw) = VResult.issues is) :
    processArgsFromRaw validate cfg raw
      = Outcome.exited 1 [zodInstanceLine, hintLine cfg.commandName]
          (validationFailLine :: is.map issueLine)
    ∧ List.IsInfix (cfg.commandName ++ strOf " --help") (hintLine cfg.commandName) := by
  constructor
  · unfold processArgsFromRaw
    rw [if_neg (by simp [hh]), hv]
  · refine ⟨strOf "詳細は ", strOf " を確認してください。", ?_⟩
    have e : strOf " --help" ++ strOf " を確認してください。"
        = strOf " --help を確認してください。" := by decide
    simp only [hintLine, List.append_assoc, e]

/--
C6 witness: a failing validator on an empty invocation yields exit 1, the
issue line for `name`, and the hint naming `demo --help`.
-/
theorem validation_failure_reports_issues_witness :
    processArgsFromRaw (fun _ => VResult.issues [demoIssue]) demoCfg []
      = Outcome.exited 1 [zodInstanceLine, hintLine demoCfg.commandName]
          (validationFailLine :: [demoIssue].map issueLine)
    ∧ List.IsInfix (demoCfg.commandName ++ strOf " --help") (hintLine demoCfg.commandName) :=
  validation_failure_reports_issues _ demoCfg [] [demoIssue] (by decide) (by decide)

/--
C9 (amended): on the help path without a custom renderer the emitted text is
the auto-generated message, whose first line is
`使用方法: <commandName> [options]` (the Japanese "Usage" label), followed by
the optional command description framed in blank lines, then the sections.
-/
theorem help_header_line_format (validate : ArgMap → VResult)
    (cfg : ProcessArgsOptions) (raw : ArgMap)
    (hh : (lookupA (normalizedOf cfg raw) (strOf "help")).elim false Value.truthy = true)
    (hc : cfg.customHelpGeneration = none) :
    processArgsFromRaw validate cfg raw
      = Outcome.exited 0
          [renderHelpMessage cfg.commandName cfg.commandDescription (finalHelpSectionsOf cfg)]
          (helpErrLines cfg (finalHelpSectionsOf cfg))
    ∧ ∃ rest,
        renderHelpMessage cfg.commandName cfg.commandDescription (finalHelpSectionsOf cfg)
          = (strOf "使用方法: " ++ cfg.commandName ++ strOf " [options]" ++ [newline])
            ++ ((match cfg.commandDescription with
                 | some d => [newline] ++ d ++ [newline]
                 | none => []) ++ rest) := by
  constructor
  · unfold processArgsFromRaw
    rw [if_pos hh]
    simp [helpOutLines, hc]
  · exact ⟨(finalHelpSectionsOf cfg).foldl (fun a sec => a ++ renderSection sec) [],
      by simp [renderHelpMessage, List.append_assoc]⟩

/--
C9 witness: concrete help invocation without a custom renderer, showing the
emitted message and its Japanese usage header.
-/
theorem help_header_line_format_witness :
    processArgsFromRaw (fun _ => VResult.ok []) demoCfgEnglish
        [(strOf "help", Value.vBool true)]
      = Outcome.exited 0
          [renderHelpMessage demoCfgEnglish.commandName demoCfgEnglish.commandDescription
            (finalHelpSectionsOf demoCfgEnglish)]
          (helpErrLines demoCfgEnglish (finalHelpSectionsOf demoCfgEnglish)) :=
  (help_header_line_format _ demoCfgEnglish _ (by decide) (by decide)).1

/--
C9 counterexample: the help message emitted for command `my-script` does not
begin with the line `Usage: my-script [options]` — the header label is the
Japanese `使用方法:`, not `Usage:`.
-/
theorem help_header_not_english_usage :
    processArgsFromRaw (fun _ => VResult.ok []) demoCfgEnglish
        [(strOf "help", Value.vBool true)]
      = Outcome.exited 0
          [renderHelpMessage (strOf "my-script") none (finalHelpSectionsOf demoCfgEnglish)] []
    ∧ (renderHelpMessage (strOf "my-script") none (finalHelpSectionsOf demoCfgEnglish)).take
        (strOf "Usage: my-script [options]").length ≠ strOf "Usage: my-script [options]" := by
  decide

/-! ## Validator-preservation lemmas and C10 -/

theorem validateField_some_preserves (key : Str) :
    ∀ (ws : List Wrapper) (b : ZBase) (v : Value) (ov : Option Value),
      validateField key ws b (some v) = Except.ok ov → ov = some v := by
  intro ws
  induction ws with
  | nil =>
    intro b v ov h
    simp only [validateField] at h
    by_cases hc : checkBase b v = true
    · rw [if_pos hc] at h
      exact (Except.ok.inj h).symm
    · rw [if_neg hc] at h
      exact absurd h (by simp)
  | cons w ws2 ih =>
    intro b v ov h
    cases w with
    | wOptional => simp only [validateField] at h; exact ih b v ov h
    | wNullable => simp only [validateField] at h; exact ih b v ov h
    | wDefault d => simp only [validateField] at h; exact ih b v ov h
    | wEffects => simp only [validateField] at h; exact ih b v ov h

theorem zodFold_issues_ne (m : ArgMap) :
    ∀ (s : Schema) (acc : ArgMap × List Issue), acc.2 ≠ [] →
      (s.foldl (zodFieldStep m) acc).2 ≠ [] := by
  intro s
  induction s with
  | nil => intro acc h; exact h
  | cons f s2 ih =>
    intro acc h
    rw [List.foldl_cons]
    apply ih
    unfold zodFieldStep
    cases hv : validateField f.key f.wrappers f.base (lookupA m f.key) with
    | ok ov =>
      cases ov with
      | none => exact h
      | some v => exact h
    | error i => simp

theorem zodFold_lookup_preserved (m : ArgMap) (k : Str) :
    ∀ (s : Schema) (acc : ArgMap × List Issue), (∀ g ∈ s, g.key ≠ k) →
      lookupA (s.foldl (zodFieldStep m) acc).1 k = lookupA acc.1 k := by
  intro s
  induction s with
  | nil => intro acc _; rfl
  | cons f s2 ih =>
    intro acc hno
    rw [List.foldl_cons, ih _ (fun g hg => hno g (List.mem_cons_of_mem _ hg))]
    unfold zodFieldStep
    cases hv : validateField f.key f.wrappers f.base (lookupA m f.key) with
    | ok ov =>
      cases ov with
      | none => rfl
      | some v =>
        simp only []
        rw [lookupA_setA, if_neg (hno f (List.mem_cons_self _ _))]
    | error i => rfl

theorem zodFold_result (m : ArgMap) (f : Field) (v : Value)
    (hv : lookupA m f.key = some v) :
    ∀ (s : Schema) (acc : ArgMap × List Issue), f ∈ s → (s.map Field.key).Nodup →
      (s.foldl (zodFieldStep m) acc).2 = [] →
      lookupA (s.foldl (zodFieldStep m) acc).1 f.key = some v := by
  intro s
  induction s with
  | nil => intro acc hf _ _; simp at hf
  | cons g s2 ih =>
    intro acc hf hnd hemp
    rw [List.map_cons, List.nodup_cons] at hnd
    rcases List.mem_cons.mp hf with hf | hf
    · subst hf
      rw [List.foldl_cons] at hemp ⊢
      rw [zodFold_lookup_preserved m f.key s2 _ (fun g2 hg2 he =>
        hnd.1 (List.mem_map.mpr ⟨g2, hg2, he⟩))]
      cases hvf : validateField f.key f.wrappers f.base (lookupA m f.key) with
      | ok ov =>
        have hvf2 : validateField f.key f.wrappers f.base (some v) = Except.ok ov := by
          rw [← hv]
          exact hvf
        have hov := validateField_some_preserves f.key f.wrappers f.base v ov hvf2
        subst hov
        have hstep : zodFieldStep m acc f = (setA acc.1 f.key v, acc.2) := by
          unfold zodFieldStep
          rw [hvf]
        rw [hstep]
        simp only []
        rw [lookupA_setA, if_pos rfl]
      | error i =>
        exfalso
        have hstep : zodFieldStep m acc f = (acc.1, acc.2 ++ [i]) := by
          unfold zodFieldStep
          rw [hvf]
        exact zodFold_issues_ne m s2 (zodFieldStep m acc f) (by rw [hstep]; simp) hemp
    · rw [List.foldl_cons] at hemp ⊢
      exact ih _ hf hnd.2 hemp

theorem zodParse_ok_inv (s : Schema) (m : ArgMap) (r : ArgMap)
    (h : zodParse s m = VResult.ok r) :
    (s.foldl (zodFieldStep m) ([], [])).2 = []
    ∧ r = (s.foldl (zodFieldStep m) ([], [])).1 := by
  unfold zodParse at h
  split at h
  · next hcond =>
    refine ⟨?_, (VResult.ok.inj h).symm⟩
    simpa using hcond
  · next hcond => exact absurd h (by simp)

theorem processArgsFromRaw_returned (validate : ArgMap → VResult)
    (cfg : ProcessArgsOptions) (raw : ArgMap) (r : ArgMap)
    (h : processArgsFromRaw validate cfg raw = Outcome.returned r) :
    validate (normalizedOf cfg raw) = VResult.ok r := by
  unfold processArgsFromRaw at h
  by_cases hh : (lookupA (normalizedOf cfg raw) (strOf "help")).elim false Value.truthy = true
  · rw [if_pos hh] at h
    exact absurd h (by simp)
  · rw [if_neg hh] at h
    cases hv : validate (normalizedOf cfg raw) with
    | ok r2 =>
      rw [hv] at h
      simp only [Outcome.returned.injEq] at h
      rw [h]
    | issues is =>
      rw [hv] at h
      exact absurd h (by simp)
    | nonIssueError msg =>
      rw [hv] at h
      exact absurd h (by simp)

/--
C10: for a field declaring a default, when the map seen by validation
carries a user-supplied value `v` for the field (as it does when the flag is
supplied on the command line), the validated result returned by
`processArgs` maps the field to `v` — the declared default does not replace
a supplied value.
-/
theorem user_value_overrides_default (cfg : ProcessArgsOptions) (f : Field)
    (d v : Value) (tokens : List Str) (r : ArgMap)
    (hf : f ∈ cfg.zodSchema)
    (hd : lastDefault f.wrappers = some d)
    (hnodup : (cfg.zodSchema.map Field.key).Nodup)
    (hv : lookupA
        (normalizedOf cfg (parseTokens (ensureOpts (finalParseOptionsOf cfg)) tokens))
        f.key = some v)
    (hrun : processArgs tokens cfg = Outcome.returned r) :
    lookupA r f.key = some v := by
  unfold processArgs at hrun
  have hok := processArgsFromRaw_returned _ _ _ _ hrun
  obtain ⟨hemp, hr⟩ := zodParse_ok_inv _ _ _ hok
  rw [hr]
  exact zodFold_result _ f v hv cfg.zodSchema _ hf hnodup hemp

/--
C10 witness: schema `{logLevel: enum default "info"}`, tokens
`--log-level debug` — the returned result carries `debug`, not the default
`info`.
-/
theorem user_value_overrides_default_witness :
    lookupA [(strOf "logLevel", Value.vStr (strOf "debug"))] demoLogLevelField.key
      = some (Value.vStr (strOf "debug")) :=
  user_value_overrides_default demoCfgLog demoLogLevelField
    (Value.vStr (strOf "info")) (Value.vStr (strOf "debug"))
    [strOf "--log-level", strOf "debug"]
    [(strOf "logLevel", Value.vStr (strOf "debug"))]
    (by decide) (by decide) (by decide) (by decide) (by decide)

end DenoCli
